import Mathlib

/-!
Shallow embedding of the event-calendar week-view layout core
(src/components/calendar/utils.ts and src/components/calendar/week-view.tsx).

Timestamps are modelled as minutes of local wall-clock time since a fixed
epoch midnight that falls on a Sunday, so calendar dates are `t / 1440` and
`weekStartsOn 0` weeks begin at multiples of `7 * 1440`.  The date-fns
helpers the source calls are modelled on this representation.
-/

namespace EventCalendar

open List

def minutesPerDay : Nat := 1440

/-- Calendar date (day index since the epoch) of a timestamp. -/
def dateOf (t : Nat) : Nat := t / minutesPerDay

/-- Model of date-fns isSameDay: timestamps on the same calendar date. -/
def isSameDay (a b : Nat) : Bool := dateOf a == dateOf b

/-- Model of date-fns startOfDay: midnight of the timestamp's calendar date. -/
def startOfDay (t : Nat) : Nat := dateOf t * minutesPerDay

/-- Model of Date.getHours: hour-of-day component, 0..23. -/
def getHours (t : Nat) : Nat := t % minutesPerDay / 60

/-- Model of Date.getMinutes: minute-of-hour component, 0..59. -/
def getMinutes (t : Nat) : Nat := t % 60

/-- Model of date-fns addHours (also utils.ts addHoursToDate). -/
def addHours (t : Nat) (h : Nat) : Nat := t + h * 60

/-- Model of date-fns differenceInDays: the number of full 24-hour day
periods between two timestamps, truncated toward zero and signed by the
order of the arguments.  This is a duration count, not a calendar-date
difference. -/
def differenceInDays (a b : Nat) : Int :=
  if b ≤ a then ((a - b) / minutesPerDay : Nat)
  else -(((b - a) / minutesPerDay : Nat) : Int)

/-- Model of date-fns differenceInMinutes. -/
def differenceInMinutes (a b : Nat) : Int := (a : Int) - (b : Int)

/-- Model of date-fns areIntervalsOverlapping with the default
(non-inclusive) option: each interval's endpoints are put in order and the
open-interval comparison is used, so touching endpoints do not overlap.
For well-formed intervals the min/max normalisation is a no-op. -/
def areIntervalsOverlapping (s1 e1 s2 e2 : Nat) : Bool :=
  min s1 e1 < max s2 e2 && min s2 e2 < max s1 e1

/-- Model of date-fns isBefore. -/
def isBefore (a b : Nat) : Bool := a < b

/-- Model of date-fns startOfWeek with weekStartsOn 0: midnight of the most
recent Sunday (epoch day 0 is a Sunday). -/
def startOfWeek (t : Nat) : Nat := (dateOf t - dateOf t % 7) * minutesPerDay

/-- Model of date-fns endOfWeek with weekStartsOn 0: the last minute of the
following Saturday. -/
def endOfWeek (t : Nat) : Nat := startOfWeek t + 7 * minutesPerDay - 1

/-- Model of date-fns isWithinInterval: inclusive on both ends. -/
def isWithinInterval (t s e : Nat) : Bool := s ≤ t && t ≤ e

/-- The event record (types.ts CalendarEvent), with the fields the layout
core reads.  The source's end field is spelled end_ because end is a
reserved word. -/
structure CalendarEvent where
  id : Nat
  start : Nat
  end_ : Nat
  allDay : Bool
deriving DecidableEq, Repr

/-- Port of isMultiDayEvent (utils.ts lines 54-58). -/
def isMultiDayEvent (ev : CalendarEvent) : Bool :=
  ev.allDay || decide (1 ≤ differenceInDays ev.end_ ev.start)

/-- The 7 days (as midnights) of the displayed week:
eachDayOfInterval(startOfWeek currentDate, endOfWeek currentDate)
at week-view lines 47-51. -/
def weekDays (currentDate : Nat) : List Nat :=
  (List.range 7).map fun i => startOfWeek currentDate + i * minutesPerDay

/-- The day-touching test used identically at week-view lines 78-80 (banner
window filter), lines 98-99 (timed bucket) and lines 238-240 (per-day banner
filter): same calendar date as the start, same calendar date as the end, or
the day's midnight instant lies strictly between start and end. -/
def touchesDay (day : Nat) (ev : CalendarEvent) : Bool :=
  isSameDay day ev.start || isSameDay day ev.end_ ||
    (decide (ev.start < day) && decide (day < ev.end_))

/-- The first filter of the allDayEvents memo (week-view lines 66-74),
written inline in the source with the same body as isMultiDayEvent. -/
def allDayFilterTest (ev : CalendarEvent) : Bool :=
  ev.allDay || decide (1 ≤ differenceInDays ev.end_ ev.start)

/-- allDayEvents (week-view lines 64-82): events passing the multi-day test
that touch at least one day of the displayed week. -/
def weekAllDayEvents (currentDate : Nat) (events : List CalendarEvent) :
    List CalendarEvent :=
  (events.filter allDayFilterTest).filter fun ev =>
    (weekDays currentDate).any fun day => touchesDay day ev

/-- The timed bucket of one day (week-view lines 88-100): events that are
not all-day, do not span a full day, and touch this day. -/
def dayEvents (day : Nat) (events : List CalendarEvent) : List CalendarEvent :=
  events.filter fun ev =>
    !ev.allDay && !(decide (1 ≤ differenceInDays ev.end_ ev.start)) &&
      touchesDay day ev

/-- The sort comparator (week-view lines 103-117) as a total preorder:
ascending original start time, ties broken by duration descending. -/
def eventLE (a b : CalendarEvent) : Bool :=
  decide (a.start < b.start) ||
    (a.start == b.start &&
      decide (differenceInMinutes b.end_ b.start ≤ differenceInMinutes a.end_ a.start))

/-- The comparator as a decidable relation. -/
def eventBefore (a b : CalendarEvent) : Prop := eventLE a b = true

instance : DecidableRel eventBefore := fun a b => by
  unfold eventBefore; infer_instance

theorem eventLE_iff (a b : CalendarEvent) :
    eventLE a b = true ↔
      (a.start < b.start ∨ (a.start = b.start ∧
        (b.end_ : Int) - (b.start : Int) ≤ (a.end_ : Int) - (a.start : Int))) := by
  simp [eventLE, differenceInMinutes]

instance : IsTotal CalendarEvent eventBefore := by
  constructor
  intro a b
  unfold eventBefore
  rw [eventLE_iff, eventLE_iff]
  rcases Nat.lt_trichotomy a.start b.start with h | h | h
  · exact Or.inl (Or.inl h)
  · rcases le_total ((b.end_ : Int) - (b.start : Int)) ((a.end_ : Int) - (a.start : Int)) with
      h2 | h2
    · exact Or.inl (Or.inr ⟨h, h2⟩)
    · exact Or.inr (Or.inr ⟨h.symm, h2⟩)
  · exact Or.inr (Or.inl h)

instance : IsTrans CalendarEvent eventBefore := by
  constructor
  intro a b c hab hbc
  unfold eventBefore at *
  rw [eventLE_iff] at *
  rcases hab with h | ⟨h, h2⟩ <;> rcases hbc with g | ⟨g, g2⟩
  · exact Or.inl (h.trans g)
  · exact Or.inl (g ▸ h)
  · exact Or.inl (h ▸ g)
  · exact Or.inr ⟨h.trans g, g2.trans h2⟩

/-- sortedEvents (week-view lines 102-117).  JavaScript's Array.prototype.sort
is a stable sort, and the output of a stable sort with respect to a total
preorder is unique, so it is modelled by insertion sort (which kernel-reduces,
unlike the well-founded mergeSort). -/
def sortedDayEvents (day : Nat) (events : List CalendarEvent) : List CalendarEvent :=
  (dayEvents day events).insertionSort eventBefore

/-- adjustedStart (week-view line 131): clip the start to the day's midnight
when the start is not on this day. -/
def adjustedStart (day : Nat) (ev : CalendarEvent) : Nat :=
  if isSameDay day ev.start then ev.start else startOfDay day

/-- adjustedEnd (week-view line 132): clip the end to the next midnight when
the end is not on this day. -/
def adjustedEnd (day : Nat) (ev : CalendarEvent) : Nat :=
  if isSameDay day ev.end_ then ev.end_ else addHours (startOfDay day) 24

/-- One entry of a column (week-view line 124): the placed event together
with its adjusted end. -/
structure ColumnEntry where
  event : CalendarEvent
  end_ : Nat
deriving DecidableEq, Repr

def entryOf (day : Nat) (ev : CalendarEvent) : ColumnEntry :=
  ⟨ev, adjustedEnd day ev⟩

/-- The overlap test of the column scan (week-view lines 150-155): the
candidate event's adjusted interval against a placed event's original
(unclipped) interval. -/
def overlapsEvent (day : Nat) (ev old : CalendarEvent) : Bool :=
  areIntervalsOverlapping (adjustedStart day ev) (adjustedEnd day ev)
    old.start old.end_

/-- Whether a column already holds an event conflicting with the candidate
(week-view lines 150-155). -/
def columnConflict (day : Nat) (ev : CalendarEvent) (c : List ColumnEntry) : Bool :=
  c.any fun en => overlapsEvent day ev en.event

/-- The while loop of week-view lines 141-163: the first column index that
either does not exist yet or has no conflicting event. -/
def findColumn (day : Nat) (ev : CalendarEvent) :
    List (List ColumnEntry) → Nat
  | [] => 0
  | c :: rest => if columnConflict day ev c then findColumn day ev rest + 1 else 0

/-- columns[columnIndex].push (week-view lines 145-147 and 166): push the
entry onto column k, materialising the column when it does not exist. -/
def addToColumns (en : ColumnEntry) :
    List (List ColumnEntry) → Nat → List (List ColumnEntry)
  | [], _ => [[en]]
  | c :: rest, 0 => (c ++ [en]) :: rest
  | c :: rest, k + 1 => c :: addToColumns en rest k

/-- The forEach of week-view lines 126-182, recorded as the list of
(event, assigned column index) pairs in processing order. -/
def assignColumnsAux (day : Nat) :
    List (List ColumnEntry) → List CalendarEvent → List (CalendarEvent × Nat)
  | _, [] => []
  | cols, ev :: rest =>
    (ev, findColumn day ev cols) ::
      assignColumnsAux day
        (addToColumns (entryOf day ev) cols (findColumn day ev cols)) rest

/-- The same forEach, recorded as the final columns structure. -/
def buildColumnsAux (day : Nat) :
    List (List ColumnEntry) → List CalendarEvent → List (List ColumnEntry)
  | cols, [] => cols
  | cols, ev :: rest =>
    buildColumnsAux day
      (addToColumns (entryOf day ev) cols (findColumn day ev cols)) rest

/-- The columns produced for one day's timed events. -/
def dayColumns (day : Nat) (events : List CalendarEvent) :
    List (List ColumnEntry) :=
  buildColumnsAux day [] (sortedDayEvents day events)

/-- hourHeight = 56 (week-view line 45). -/
def hourHeight : ℚ := 56

/-- Fractional hour of a timestamp: getHours + getMinutes / 60
(week-view lines 135-136). -/
def fracHour (t : Nat) : ℚ := (getHours t : ℚ) + (getMinutes t : ℚ) / 60

/-- PositionedEvent (week-view lines 35-42). -/
structure PositionedEvent where
  event : CalendarEvent
  top : ℚ
  height : ℚ
  left : ℚ
  width : ℚ
  zIndex : Nat
deriving DecidableEq, Repr

/-- The geometry of week-view lines 134-138 and 168-181 for an event placed
in column k. -/
def positionEvent (day : Nat) (ev : CalendarEvent) (k : Nat) : PositionedEvent :=
  { event := ev
    top := fracHour (adjustedStart day ev) * hourHeight
    height := (fracHour (adjustedEnd day ev) - fracHour (adjustedStart day ev)) * hourHeight
    left := if k = 0 then 0 else (k : ℚ) * (1 / 10)
    width := if k = 0 then 1 else 9 / 10
    zIndex := 10 + k }

/-- One day's entry of processedDayEvents (week-view lines 85-188). -/
def processedDay (day : Nat) (events : List CalendarEvent) : List PositionedEvent :=
  (assignColumnsAux day [] (sortedDayEvents day events)).map fun p =>
    positionEvent day p.1 p.2

/-- processedDayEvents: the positioned timed events of each of the 7 days. -/
def processedDayEvents (currentDate : Nat) (events : List CalendarEvent) :
    List (List PositionedEvent) :=
  (weekDays currentDate).map fun day => processedDay day events

/-- One rendered banner cell entry (week-view lines 248-257): the event with
its isFirstDay / isLastDay flags and the title-visibility flag
shouldShowTitle = isFirstDay or (dayIndex = 0 and start before weekStart). -/
structure BannerEntry where
  event : CalendarEvent
  isFirstDay : Bool
  isLastDay : Bool
  shouldShowTitle : Bool
deriving DecidableEq, Repr

def bannerEntriesForDay (weekStartT day : Nat) (dayIndex : Nat)
    (allDayEvs : List CalendarEvent) : List BannerEntry :=
  (allDayEvs.filter (touchesDay day)).map fun ev =>
    { event := ev
      isFirstDay := isSameDay day ev.start
      isLastDay := isSameDay day ev.end_
      shouldShowTitle :=
        isSameDay day ev.start || (dayIndex == 0 && isBefore ev.start weekStartT) }

/-- The banner cells of the 7 displayed days (week-view lines 236-300). -/
def weekBanner (currentDate : Nat) (events : List CalendarEvent) :
    List (List BannerEntry) :=
  (List.range 7).map fun i =>
    bannerEntriesForDay (startOfWeek currentDate)
      (startOfWeek currentDate + i * minutesPerDay) i
      (weekAllDayEvents currentDate events)

/-- The position computed by useCurrentTimeIndicator (utils.ts lines
115-124): percent of the day elapsed at the current wall-clock time. -/
def currentTimePosition (now : Nat) : ℚ :=
  ((getHours now * 60 + getMinutes now : Nat) : ℚ) / ((24 * 60 : Nat) : ℚ) * 100

/-- The week-view visibility computed by useCurrentTimeIndicator (utils.ts
lines 131-135). -/
def currentTimeVisibleWeek (now currentDate : Nat) : Bool :=
  isWithinInterval now (startOfWeek currentDate) (endOfWeek currentDate)

/-- Open-interval intersection of the clipped display intervals of two
events on one day, used to state the column invariant. -/
def clippedOverlap (day : Nat) (a b : CalendarEvent) : Prop :=
  max (adjustedStart day a) (adjustedStart day b) <
    min (adjustedEnd day a) (adjustedEnd day b)

instance (day : Nat) (a b : CalendarEvent) : Decidable (clippedOverlap day a b) := by
  unfold clippedOverlap; infer_instance

/-- The overlap test on two events' original intervals. -/
def rawOverlap (a b : CalendarEvent) : Bool :=
  areIntervalsOverlapping a.start a.end_ b.start b.end_

/-! ### Arithmetic facts about the date helpers -/

/-- A timestamp that is the midnight of its own calendar date. -/
def IsMidnight (t : Nat) : Prop := startOfDay t = t

theorem dateOf_le_dateOf {s t : Nat} (h : s ≤ t) : dateOf s ≤ dateOf t :=
  Nat.div_le_div_right h

theorem startOfDay_le (t : Nat) : startOfDay t ≤ t :=
  Nat.div_mul_le_self t minutesPerDay

theorem lt_startOfDay_add (t : Nat) : t < startOfDay t + minutesPerDay := by
  simp only [startOfDay, dateOf, minutesPerDay]
  omega

theorem next_day_le {s t : Nat} (h : dateOf s < dateOf t) :
    startOfDay s + minutesPerDay ≤ t := by
  simp only [startOfDay, dateOf, minutesPerDay] at *
  omega

theorem startOfDay_congr {s t : Nat} (h : dateOf s = dateOf t) :
    startOfDay s = startOfDay t := by
  unfold startOfDay
  rw [h]

theorem lt_of_dateOf_lt {s t : Nat} (h : dateOf s < dateOf t) : s < t := by
  simp only [dateOf, minutesPerDay] at h
  omega

theorem isSameDay_iff {a b : Nat} : isSameDay a b = true ↔ dateOf a = dateOf b := by
  simp [isSameDay]

theorem touchesDay_iff {day : Nat} {ev : CalendarEvent} :
    touchesDay day ev = true ↔
      (dateOf day = dateOf ev.start ∨ dateOf day = dateOf ev.end_ ∨
        (ev.start < day ∧ day < ev.end_)) := by
  simp [touchesDay, isSameDay, or_assoc]

/-! ### Bounds on the clipped interval of a well-formed bucketed event -/

theorem adjustedStart_ge {day : Nat} {ev : CalendarEvent} (hm : IsMidnight day)
    (hwf : ev.start ≤ ev.end_) (ht : touchesDay day ev = true) :
    ev.start ≤ adjustedStart day ev := by
  unfold adjustedStart
  by_cases hs : isSameDay day ev.start = true
  · rw [if_pos hs]
  · rw [if_neg hs]
    rw [isSameDay_iff] at hs
    unfold IsMidnight at hm
    rcases touchesDay_iff.mp ht with h | h | h
    · exact absurd h hs
    · have h1 : dateOf ev.start < dateOf day := by
        rcases Nat.lt_or_ge (dateOf ev.start) (dateOf day) with h2 | h2
        · exact h2
        · exact absurd (Nat.le_antisymm (h ▸ dateOf_le_dateOf hwf) h2) (fun g => hs g.symm)
      have h2 := next_day_le h1
      have h3 := lt_startOfDay_add ev.start
      omega
    · omega

theorem adjustedEnd_le {day : Nat} {ev : CalendarEvent} (hm : IsMidnight day)
    (hwf : ev.start ≤ ev.end_) (ht : touchesDay day ev = true) :
    adjustedEnd day ev ≤ ev.end_ := by
  unfold adjustedEnd addHours
  by_cases he : isSameDay day ev.end_ = true
  · rw [if_pos he]
  · rw [if_neg he]
    rw [isSameDay_iff] at he
    have hlt : dateOf day < dateOf ev.end_ := by
      rcases touchesDay_iff.mp ht with h | h | h
      · rcases Nat.lt_or_ge (dateOf day) (dateOf ev.end_) with h2 | h2
        · exact h2
        · exact absurd (Nat.le_antisymm (h ▸ dateOf_le_dateOf hwf) h2) he
      · exact absurd h he
      · rcases Nat.lt_or_ge (dateOf day) (dateOf ev.end_) with h2 | h2
        · exact h2
        · exact absurd (Nat.le_antisymm (dateOf_le_dateOf h.2.le) h2) he
    have h2 := next_day_le hlt
    simp only [minutesPerDay] at h2
    omega

theorem adjusted_wf {day : Nat} {ev : CalendarEvent} (hm : IsMidnight day)
    (hwf : ev.start ≤ ev.end_) (ht : touchesDay day ev = true) :
    adjustedStart day ev ≤ adjustedEnd day ev := by
  unfold adjustedStart adjustedEnd addHours
  unfold IsMidnight at hm
  by_cases hs : isSameDay day ev.start = true <;>
    by_cases he : isSameDay day ev.end_ = true
  · rw [if_pos hs, if_pos he]; exact hwf
  · rw [if_pos hs, if_neg he]
    have h1 : startOfDay ev.start = startOfDay day :=
      startOfDay_congr (isSameDay_iff.mp hs).symm
    have h2 := lt_startOfDay_add ev.start
    simp only [minutesPerDay] at h2
    omega
  · rw [if_neg hs, if_pos he]
    have h1 : startOfDay day = startOfDay ev.end_ :=
      startOfDay_congr (isSameDay_iff.mp he)
    have h2 := startOfDay_le ev.end_
    omega
  · rw [if_neg hs, if_neg he]
    omega

/-! ### The overlap tests on well-formed intervals -/

theorem areIntervalsOverlapping_of_wf {s1 e1 s2 e2 : Nat} (h1 : s1 ≤ e1) (h2 : s2 ≤ e2) :
    areIntervalsOverlapping s1 e1 s2 e2 = (decide (s1 < e2) && decide (s2 < e1)) := by
  unfold areIntervalsOverlapping
  rw [Nat.min_eq_left h1, Nat.min_eq_left h2, Nat.max_eq_right h1, Nat.max_eq_right h2]

/-- If the column scan accepted event b into a column already holding event a
(so the mixed adjusted-vs-original test found no overlap), then the clipped
display intervals of a and b do not intersect. -/
theorem not_clippedOverlap_of_noConflict {day : Nat} {a b : CalendarEvent}
    (hm : IsMidnight day) (hwa : a.start ≤ a.end_) (hwb : b.start ≤ b.end_)
    (hta : touchesDay day a = true) (htb : touchesDay day b = true)
    (h : overlapsEvent day b a = false) : ¬ clippedOverlap day a b := by
  intro hov
  unfold clippedOverlap at hov
  unfold overlapsEvent at h
  rw [areIntervalsOverlapping_of_wf (adjusted_wf hm hwb htb) hwa] at h
  have hA : adjustedStart day b < a.end_ := by
    have g1 : adjustedStart day b < min (adjustedEnd day a) (adjustedEnd day b) :=
      lt_of_le_of_lt (le_max_right _ _) hov
    exact lt_of_lt_of_le (lt_of_lt_of_le g1 (min_le_left _ _)) (adjustedEnd_le hm hwa hta)
  have hB : a.start < adjustedEnd day b := by
    have g1 : adjustedStart day a < min (adjustedEnd day a) (adjustedEnd day b) :=
      lt_of_le_of_lt (le_max_left _ _) hov
    exact lt_of_le_of_lt (adjustedStart_ge hm hwa hta)
      (lt_of_lt_of_le g1 (min_le_right _ _))
  rw [decide_eq_true hA, decide_eq_true hB] at h
  simp at h

/-! ### Properties of the greedy column scan -/

theorem findColumn_le (day : Nat) (ev : CalendarEvent) :
    ∀ cols, findColumn day ev cols ≤ cols.length := by
  intro cols
  induction cols with
  | nil => simp [findColumn]
  | cons c rest ih =>
    unfold findColumn
    split
    · exact Nat.succ_le_succ ih
    · exact Nat.zero_le _

theorem findColumn_fits (day : Nat) (ev : CalendarEvent) :
    ∀ cols c, cols[findColumn day ev cols]? = some c →
      columnConflict day ev c = false := by
  intro cols
  induction cols with
  | nil => intro c h; simp at h
  | cons c0 rest ih =>
    intro c h
    unfold findColumn at h
    by_cases hc : columnConflict day ev c0 = true
    · rw [if_pos hc] at h
      rw [List.getElem?_cons_succ] at h
      exact ih c h
    · rw [if_neg hc] at h
      rw [List.getElem?_cons_zero] at h
      cases h
      exact Bool.eq_false_iff.mpr hc

theorem findColumn_conflict (day : Nat) (ev : CalendarEvent) :
    ∀ cols j, j < findColumn day ev cols →
      ∃ c, cols[j]? = some c ∧ columnConflict day ev c = true := by
  intro cols
  induction cols with
  | nil => intro j h; simp [findColumn] at h
  | cons c0 rest ih =>
    intro j h
    unfold findColumn at h
    by_cases hc : columnConflict day ev c0 = true
    · rw [if_pos hc] at h
      cases j with
      | zero => exact ⟨c0, by simp, hc⟩
      | succ j' =>
        obtain ⟨c, hg, hcf⟩ := ih j' (Nat.lt_of_succ_lt_succ h)
        exact ⟨c, by simpa using hg, hcf⟩
    · rw [if_neg hc] at h
      omega

theorem columnConflict_forall {day : Nat} {ev : CalendarEvent} {c : List ColumnEntry}
    (h : columnConflict day ev c = false) :
    ∀ en ∈ c, overlapsEvent day ev en.event = false := by
  intro en hen
  unfold columnConflict at h
  rw [List.any_eq_false] at h
  exact Bool.eq_false_iff.mpr (h en hen)

/-! ### Properties of addToColumns -/

theorem addToColumns_length_of_lt (en : ColumnEntry) :
    ∀ cols k, k < cols.length → (addToColumns en cols k).length = cols.length := by
  intro cols
  induction cols with
  | nil => intro k h; simp at h
  | cons c rest ih =>
    intro k h
    cases k with
    | zero => simp [addToColumns]
    | succ k' =>
      simp only [addToColumns, List.length_cons]
      rw [ih k' (by simpa using h)]

theorem addToColumns_length_self (en : ColumnEntry) :
    ∀ cols, (addToColumns en cols cols.length).length = cols.length + 1 := by
  intro cols
  induction cols with
  | nil => simp [addToColumns]
  | cons c rest ih =>
    simp only [addToColumns, List.length_cons]
    rw [ih]

theorem addToColumns_getElem?_eq (en : ColumnEntry) :
    ∀ cols k, k ≤ cols.length →
      (addToColumns en cols k)[k]? = some ((cols[k]?).getD [] ++ [en]) := by
  intro cols
  induction cols with
  | nil =>
    intro k h
    have hk0 : k = 0 := by simpa using h
    subst hk0
    simp [addToColumns]
  | cons c rest ih =>
    intro k h
    cases k with
    | zero => simp [addToColumns]
    | succ k' =>
      simp only [addToColumns, List.getElem?_cons_succ]
      exact ih k' (by simpa using h)

theorem addToColumns_getElem?_ne (en : ColumnEntry) :
    ∀ cols k j, k ≤ cols.length → j ≠ k →
      (addToColumns en cols k)[j]? = cols[j]? := by
  intro cols
  induction cols with
  | nil =>
    intro k j hk hj
    have hk0 : k = 0 := by simpa using hk
    subst hk0
    cases j with
    | zero => exact absurd rfl hj
    | succ j' => simp [addToColumns]
  | cons c rest ih =>
    intro k j hk hj
    cases k with
    | zero =>
      cases j with
      | zero => exact absurd rfl hj
      | succ j' => simp [addToColumns]
    | succ k' =>
      cases j with
      | zero => simp [addToColumns]
      | succ j' =>
        simp only [addToColumns, List.getElem?_cons_succ]
        exact ih k' j' (by simpa using hk) (fun g => hj (by rw [g]))

theorem addToColumns_flatten_perm (en : ColumnEntry) :
    ∀ cols k, (addToColumns en cols k).flatten ~ en :: cols.flatten := by
  intro cols
  induction cols with
  | nil => intro k; simp [addToColumns]
  | cons c rest ih =>
    intro k
    cases k with
    | zero =>
      simp only [addToColumns, List.flatten_cons]
      calc (c ++ [en]) ++ rest.flatten = c ++ en :: rest.flatten := by simp
        _ ~ en :: (c ++ rest.flatten) := List.perm_middle
    | succ k' =>
      simp only [addToColumns, List.flatten_cons]
      calc c ++ (addToColumns en rest k').flatten
          ~ c ++ en :: rest.flatten := List.Perm.append_left c (ih k')
        _ ~ en :: (c ++ rest.flatten) := List.perm_middle

theorem addToColumns_pairwise {R : ColumnEntry → ColumnEntry → Prop} (en : ColumnEntry) :
    ∀ cols k, (∀ c ∈ cols, c.Pairwise R) →
      (∀ c, cols[k]? = some c → ∀ a ∈ c, R a en) →
      ∀ c' ∈ addToColumns en cols k, c'.Pairwise R := by
  intro cols
  induction cols with
  | nil =>
    intro k hall hk c' hc'
    simp only [addToColumns] at hc'
    rcases List.mem_singleton.mp hc' with rfl
    exact List.pairwise_singleton _ _
  | cons c0 rest ih =>
    intro k hall hk c' hc'
    cases k with
    | zero =>
      simp only [addToColumns, List.mem_cons] at hc'
      rcases hc' with rfl | hc'
      · rw [List.pairwise_append]
        refine ⟨hall c0 (List.mem_cons_self _ _), List.pairwise_singleton _ _, ?_⟩
        intro a ha b hb
        rcases List.mem_singleton.mp hb with rfl
        exact hk c0 (by simp) a ha
      · exact hall c' (List.mem_cons_of_mem _ hc')
    | succ k' =>
      simp only [addToColumns, List.mem_cons] at hc'
      rcases hc' with rfl | hc'
      · exact hall c' (List.mem_cons_self _ _)
      · exact ih k' (fun c hc => hall c (List.mem_cons_of_mem _ hc))
          (fun c hc a ha => hk c (by simpa using hc) a ha) c' hc'

/-! ### Invariants of the placement fold -/

/-- Within any produced column, each later entry was tested (with the mixed
adjusted-vs-original test) against each earlier entry and found conflict-free. -/
def noConfLater (day : Nat) (a b : ColumnEntry) : Prop :=
  overlapsEvent day b.event a.event = false

theorem buildColumnsAux_pairwise (day : Nat) :
    ∀ l cols, (∀ c ∈ cols, c.Pairwise (noConfLater day)) →
      ∀ c ∈ buildColumnsAux day cols l, c.Pairwise (noConfLater day) := by
  intro l
  induction l with
  | nil => intro cols h c hc; exact h c hc
  | cons ev rest ih =>
    intro cols h c hc
    simp only [buildColumnsAux] at hc
    refine ih _ ?_ c hc
    refine addToColumns_pairwise _ _ _ h ?_
    intro c0 hg a ha
    exact columnConflict_forall (findColumn_fits day ev cols c0 hg) a ha

theorem buildColumnsAux_flatten_perm (day : Nat) :
    ∀ l cols, List.Perm (buildColumnsAux day cols l).flatten
      (cols.flatten ++ l.map (entryOf day)) := by
  intro l
  induction l with
  | nil => intro cols; simp [buildColumnsAux]
  | cons ev rest ih =>
    intro cols
    simp only [buildColumnsAux, List.map_cons]
    calc (buildColumnsAux day
            (addToColumns (entryOf day ev) cols (findColumn day ev cols)) rest).flatten
        ~ (addToColumns (entryOf day ev) cols (findColumn day ev cols)).flatten ++
            rest.map (entryOf day) := ih _
      _ ~ (entryOf day ev :: cols.flatten) ++ rest.map (entryOf day) :=
          (addToColumns_flatten_perm _ cols _).append_right _
      _ ~ cols.flatten ++ entryOf day ev :: rest.map (entryOf day) :=
          List.perm_middle.symm

theorem buildColumnsAux_length_mono (day : Nat) :
    ∀ l cols, cols.length ≤ (buildColumnsAux day cols l).length := by
  intro l
  induction l with
  | nil => intro cols; exact Nat.le_refl _
  | cons ev rest ih =>
    intro cols
    simp only [buildColumnsAux]
    refine Nat.le_trans ?_ (ih _)
    rcases Nat.lt_or_ge (findColumn day ev cols) cols.length with h | h
    · rw [addToColumns_length_of_lt _ _ _ h]
    · have : findColumn day ev cols = cols.length :=
        Nat.le_antisymm (findColumn_le day ev cols) h
      rw [this, addToColumns_length_self]
      exact Nat.le_succ _

theorem assignColumnsAux_map_fst (day : Nat) :
    ∀ l cols, (assignColumnsAux day cols l).map Prod.fst = l := by
  intro l
  induction l with
  | nil => intro cols; rfl
  | cons ev rest ih =>
    intro cols
    simp only [assignColumnsAux, List.map_cons, ih]

theorem getElem?_addToColumns_mono (en : ColumnEntry) :
    ∀ (cols : List (List ColumnEntry)) (k j : Nat) (c : List ColumnEntry),
      k ≤ cols.length → cols[j]? = some c →
      ∃ c', (addToColumns en cols k)[j]? = some c' ∧ ∀ x ∈ c, x ∈ c' := by
  intro cols k j c hk hg
  by_cases hj : j = k
  · subst hj
    refine ⟨(cols[j]?).getD [] ++ [en], addToColumns_getElem?_eq en cols j hk, ?_⟩
    intro x hx
    rw [hg]
    simp only [Option.getD_some]
    exact List.mem_append_left _ hx
  · exact ⟨c, by rw [addToColumns_getElem?_ne en cols k j hk hj]; exact hg,
      fun x hx => hx⟩

theorem assignColumnsAux_fits (day : Nat) :
    ∀ l cols p, p ∈ assignColumnsAux day cols l →
      ∀ c, cols[p.2]? = some c → columnConflict day p.1 c = false := by
  intro l
  induction l with
  | nil => intro cols p h; simp [assignColumnsAux] at h
  | cons ev rest ih =>
    intro cols p h c hg
    simp only [assignColumnsAux, List.mem_cons] at h
    rcases h with rfl | h
    · exact findColumn_fits day ev cols c hg
    · obtain ⟨c', hg', hsub⟩ :=
        getElem?_addToColumns_mono (entryOf day ev) cols (findColumn day ev cols) p.2 c
          (findColumn_le day ev cols) hg
      have hfit := ih _ p h c' hg'
      unfold columnConflict at hfit ⊢
      rw [List.any_eq_false] at hfit ⊢
      intro x hx
      exact hfit x (hsub x hx)

theorem assignColumnsAux_pairwise (day : Nat) :
    ∀ l cols, (assignColumnsAux day cols l).Pairwise
      (fun p q => p.2 = q.2 → overlapsEvent day q.1 p.1 = false) := by
  intro l
  induction l with
  | nil => intro cols; simp [assignColumnsAux]
  | cons ev rest ih =>
    intro cols
    simp only [assignColumnsAux]
    refine List.Pairwise.cons ?_ (ih _)
    intro q hq heq
    have heq' : findColumn day ev cols = q.2 := heq
    have hk := findColumn_le day ev cols
    have hgk := addToColumns_getElem?_eq (entryOf day ev) cols _ hk
    have hgk2 : (addToColumns (entryOf day ev) cols (findColumn day ev cols))[q.2]? =
        some ((cols[findColumn day ev cols]?).getD [] ++ [entryOf day ev]) := by
      rw [← heq']
      exact hgk
    have hfit := assignColumnsAux_fits day rest _ q hq _ hgk2
    exact columnConflict_forall hfit (entryOf day ev)
      (List.mem_append_right _ (List.mem_singleton.mpr rfl))

theorem assignColumnsAux_snd_lt (day : Nat) :
    ∀ l cols p, p ∈ assignColumnsAux day cols l →
      p.2 < (buildColumnsAux day cols l).length := by
  intro l
  induction l with
  | nil => intro cols p h; simp [assignColumnsAux] at h
  | cons ev rest ih =>
    intro cols p h
    simp only [assignColumnsAux, List.mem_cons] at h
    simp only [buildColumnsAux]
    rcases h with rfl | h
    · refine Nat.lt_of_lt_of_le ?_ (buildColumnsAux_length_mono day rest _)
      rcases Nat.lt_or_ge (findColumn day ev cols) cols.length with h | h
      · rw [addToColumns_length_of_lt _ _ _ h]; exact h
      · have he : findColumn day ev cols = cols.length :=
          Nat.le_antisymm (findColumn_le day ev cols) h
        rw [he, addToColumns_length_self]
        exact Nat.lt_succ_self _
    · exact ih _ p h

/-! ### Bucket membership and midnights of the week -/

theorem mem_dayEvents {day : Nat} {ev : CalendarEvent} {events : List CalendarEvent} :
    ev ∈ dayEvents day events ↔
      ev ∈ events ∧ ev.allDay = false ∧
        differenceInDays ev.end_ ev.start < 1 ∧ touchesDay day ev = true := by
  simp only [dayEvents, List.mem_filter, Bool.and_eq_true, Bool.not_eq_true',
    decide_eq_false_iff_not]
  constructor
  · rintro ⟨h1, ⟨⟨h2, h3⟩, h4⟩⟩
    exact ⟨h1, h2, by omega, h4⟩
  · rintro ⟨h1, h2, h3, h4⟩
    exact ⟨h1, ⟨⟨h2, by omega⟩, h4⟩⟩

theorem isMidnight_mul (k : Nat) : IsMidnight (k * minutesPerDay) := by
  simp only [IsMidnight, startOfDay, dateOf, minutesPerDay]
  omega

theorem weekDays_isMidnight {c d : Nat} (h : d ∈ weekDays c) : IsMidnight d := by
  simp only [weekDays, List.mem_map, List.mem_range] at h
  obtain ⟨i, _, rfl⟩ := h
  unfold startOfWeek
  rw [← Nat.add_mul]
  exact isMidnight_mul _

theorem midnight_inj {d1 d2 : Nat} (h1 : IsMidnight d1) (h2 : IsMidnight d2)
    (h : dateOf d1 = dateOf d2) : d1 = d2 := by
  unfold IsMidnight at h1 h2
  rw [← h1, ← h2]
  exact startOfDay_congr h

/-- A day whose bucket contains a single-calendar-date event must be that
event's own date. -/
theorem bucket_day_unique {day : Nat} {ev : CalendarEvent} (hm : IsMidnight day)
    (ht : touchesDay day ev = true) (heq : dateOf ev.start = dateOf ev.end_) :
    dateOf day = dateOf ev.start := by
  rcases touchesDay_iff.mp ht with h | h | h
  · exact h
  · rw [h, heq]
  · exfalso
    have h1 : dateOf ev.start ≤ dateOf day := dateOf_le_dateOf h.1.le
    have h2 : dateOf day ≤ dateOf ev.end_ := dateOf_le_dateOf h.2.le
    have h3 : dateOf day = dateOf ev.start :=
      Nat.le_antisymm (heq ▸ h2) h1
    have h4 := startOfDay_congr h3
    have h5 := startOfDay_le ev.start
    unfold IsMidnight at hm
    omega

theorem differenceInDays_lt_one_of_sameDate {s e : Nat} (h : dateOf s = dateOf e) :
    differenceInDays e s < 1 := by
  simp only [differenceInDays, dateOf, minutesPerDay] at *
  split <;> omega

/-! ### C1 -/

/-- C1, counterexample: the event 23:00 to 01:00 the next day has
calendar-date difference 1 (so the claim routes it to the banner), yet the
code classifies it as not multi-day, excludes it from the banner list and
places it in a timed day bucket. -/
theorem multiDay_calendar_rule_counterexample :
    (⟨100, 1380, 1500, false⟩ : CalendarEvent).allDay = false ∧
    1 ≤ (dateOf (⟨100, 1380, 1500, false⟩ : CalendarEvent).end_ : Int) -
      (dateOf (⟨100, 1380, 1500, false⟩ : CalendarEvent).start : Int) ∧
    isMultiDayEvent ⟨100, 1380, 1500, false⟩ = false ∧
    ⟨100, 1380, 1500, false⟩ ∉ weekAllDayEvents 0 [⟨100, 1380, 1500, false⟩] ∧
    ⟨100, 1380, 1500, false⟩ ∈ dayEvents 0 [⟨100, 1380, 1500, false⟩] := by
  decide

/-- C1, amended: an event is routed to the banner (and excluded from every
timed bucket) iff its allDay flag is set or at least one full 24-hour day
elapses between start and end (truncated duration, date-fns
differenceInDays), and it touches the window; consequently 23:00-01:00(+1)
is timed, 10:00 to 10:00(+1) is multi-day, 10:00-23:59 is timed. -/
theorem multiDay_routing_amended (currentDate : Nat) (events : List CalendarEvent)
    (ev : CalendarEvent) :
    (ev ∈ weekAllDayEvents currentDate events ↔
      ev ∈ events ∧ isMultiDayEvent ev = true ∧
        ((weekDays currentDate).any fun day => touchesDay day ev) = true) ∧
    (∀ day : Nat, ev ∈ dayEvents day events → isMultiDayEvent ev = false) ∧
    isMultiDayEvent ⟨101, 1380, 1500, false⟩ = false ∧
    isMultiDayEvent ⟨102, 600, 2040, false⟩ = true ∧
    isMultiDayEvent ⟨103, 600, 1439, false⟩ = false := by
  refine ⟨?_, ?_, by decide, by decide, by decide⟩
  · simp only [weekAllDayEvents, List.mem_filter, allDayFilterTest, isMultiDayEvent,
      List.any_eq_true, and_assoc, Bool.or_eq_true, decide_eq_true_eq]
  · intro day h
    rcases mem_dayEvents.mp h with ⟨-, h2, h3, -⟩
    simp [isMultiDayEvent, h2]
    omega

theorem multiDay_routing_amended_witness :
    isMultiDayEvent ⟨104, 1350, 1440, false⟩ = false :=
  (multiDay_routing_amended 0 [⟨104, 1350, 1440, false⟩] ⟨104, 1350, 1440, false⟩).2.1
    0 (by decide)

/-! ### C6 -/

/-- C6, counterexample: the event 23:00-24:00 (ending exactly at the next
midnight) fails the multi-day classifier, appears in the timed buckets of
two distinct days of the week (its start day and its end day), yet its
start and end do not bracket either day's midnight (for day 0 the start is
not before it; for day 1440 the end is not strictly after it). -/
theorem timed_bucket_bracketing_counterexample :
    isMultiDayEvent ⟨60, 1380, 1440, false⟩ = false ∧
    (0 : Nat) ∈ weekDays 0 ∧ (1440 : Nat) ∈ weekDays 0 ∧ (0 : Nat) ≠ 1440 ∧
    ⟨60, 1380, 1440, false⟩ ∈ dayEvents 0 [⟨60, 1380, 1440, false⟩] ∧
    ⟨60, 1380, 1440, false⟩ ∈ dayEvents 1440 [⟨60, 1380, 1440, false⟩] ∧
    ¬((⟨60, 1380, 1440, false⟩ : CalendarEvent).start < 0 ∧
      (0 : Nat) < (⟨60, 1380, 1440, false⟩ : CalendarEvent).end_) ∧
    ¬((⟨60, 1380, 1440, false⟩ : CalendarEvent).start < 1440 ∧
      (1440 : Nat) < (⟨60, 1380, 1440, false⟩ : CalendarEvent).end_) := by
  decide

/-- C6, amended: an event appears in the timed buckets of two distinct days
of the window only if its start and end fall on different calendar dates;
and in the normal case where start and end share a calendar date, a
non-all-day event of the input list is in a day's bucket iff that day is
the event's own date (so it appears in exactly one bucket). -/
theorem timed_bucket_two_days_amended (currentDate : Nat)
    (events : List CalendarEvent) (ev : CalendarEvent) :
    (∀ d1 ∈ weekDays currentDate, ∀ d2 ∈ weekDays currentDate,
      ev ∈ dayEvents d1 events → ev ∈ dayEvents d2 events → d1 ≠ d2 →
        dateOf ev.start ≠ dateOf ev.end_) ∧
    (dateOf ev.start = dateOf ev.end_ → ev.allDay = false → ev ∈ events →
      ∀ d ∈ weekDays currentDate,
        (ev ∈ dayEvents d events ↔ dateOf d = dateOf ev.start)) := by
  constructor
  · intro d1 hd1 d2 hd2 hm1 hm2 hne heq
    have ht1 := (mem_dayEvents.mp hm1).2.2.2
    have ht2 := (mem_dayEvents.mp hm2).2.2.2
    have e1 := bucket_day_unique (weekDays_isMidnight hd1) ht1 heq
    have e2 := bucket_day_unique (weekDays_isMidnight hd2) ht2 heq
    exact hne (midnight_inj (weekDays_isMidnight hd1) (weekDays_isMidnight hd2)
      (e1.trans e2.symm))
  · intro heq hall hmem d hd
    constructor
    · intro hm1
      exact bucket_day_unique (weekDays_isMidnight hd) (mem_dayEvents.mp hm1).2.2.2 heq
    · intro hdate
      refine mem_dayEvents.mpr ⟨hmem, hall, differenceInDays_lt_one_of_sameDate heq, ?_⟩
      rw [touchesDay_iff]
      exact Or.inl hdate

theorem timed_bucket_two_days_amended_witness :
    dateOf (⟨62, 1380, 1445, false⟩ : CalendarEvent).start ≠
      dateOf (⟨62, 1380, 1445, false⟩ : CalendarEvent).end_ :=
  (timed_bucket_two_days_amended 0 [⟨62, 1380, 1445, false⟩] ⟨62, 1380, 1445, false⟩).1
    0 (by decide) 1440 (by decide) (by decide) (by decide) (by decide)

/-! ### C7 -/

/-- C7: a well-formed (start before end), non-all-day event of less than one
full day that crosses midnight gets, in its start day's layout, a positioned
rectangle of strictly negative height: the end is clipped to the next
midnight, whose hour-of-day reads as 0 rather than 24. -/
theorem midnight_crossing_negative_height :
    (⟨70, 1380, 1500, false⟩ : CalendarEvent).start <
      (⟨70, 1380, 1500, false⟩ : CalendarEvent).end_ ∧
    (⟨70, 1380, 1500, false⟩ : CalendarEvent).allDay = false ∧
    differenceInDays (⟨70, 1380, 1500, false⟩ : CalendarEvent).end_
      (⟨70, 1380, 1500, false⟩ : CalendarEvent).start < 1 ∧
    dateOf (⟨70, 1380, 1500, false⟩ : CalendarEvent).start ≠
      dateOf (⟨70, 1380, 1500, false⟩ : CalendarEvent).end_ ∧
    ∃ p ∈ processedDay 0 [⟨70, 1380, 1500, false⟩], p.height < 0 := by
  refine ⟨by decide, by decide, by decide, by decide,
    positionEvent 0 ⟨70, 1380, 1500, false⟩ 0, ?_, ?_⟩
  · rw [show processedDay 0 [⟨70, 1380, 1500, false⟩] =
      [positionEvent 0 ⟨70, 1380, 1500, false⟩ 0] from rfl]
    exact List.mem_singleton.mpr rfl
  · norm_num [positionEvent, fracHour, getHours, getMinutes, minutesPerDay, hourHeight,
      adjustedStart, adjustedEnd, isSameDay, dateOf, startOfDay, addHours]

/-! ### C5 -/

/-- C5: every positioned timed event has top = startHour * 56 and
height = (endHour - startHour) * 56 in fractional hours of the clipped
boundaries; column 0 is full-width at the left edge with zIndex 10, column
k > 0 has left = k * 0.1, width = 0.9 and zIndex = 10 + k; and the
09:00-10:30 event yields top = 504 and height = 84. -/
theorem positioned_geometry (day : Nat) (events : List CalendarEvent) :
    (∀ p ∈ processedDay day events,
      p.top = fracHour (adjustedStart day p.event) * hourHeight ∧
      p.height = (fracHour (adjustedEnd day p.event) -
        fracHour (adjustedStart day p.event)) * hourHeight ∧
      ((p.left = 0 ∧ p.width = 1 ∧ p.zIndex = 10) ∨
        (∃ k : Nat, 0 < k ∧ p.left = (k : ℚ) * (1 / 10) ∧ p.width = 9 / 10 ∧
          p.zIndex = 10 + k))) ∧
    (positionEvent 0 ⟨51, 540, 630, false⟩ 0).top = 504 ∧
    (positionEvent 0 ⟨51, 540, 630, false⟩ 0).height = 84 ∧
    processedDay 0 [⟨51, 540, 630, false⟩] = [positionEvent 0 ⟨51, 540, 630, false⟩ 0] := by
  refine ⟨?_, ?_, ?_, rfl⟩
  · intro p hp
    unfold processedDay at hp
    obtain ⟨⟨ev, k⟩, -, rfl⟩ := List.mem_map.mp hp
    refine ⟨rfl, rfl, ?_⟩
    cases k with
    | zero => exact Or.inl ⟨rfl, rfl, rfl⟩
    | succ k' =>
      exact Or.inr ⟨k' + 1, Nat.succ_pos _, by simp [positionEvent], by simp [positionEvent], rfl⟩
  · norm_num [positionEvent, fracHour, getHours, getMinutes, minutesPerDay, hourHeight,
      adjustedStart, adjustedEnd, isSameDay, dateOf, startOfDay, addHours]
  · norm_num [positionEvent, fracHour, getHours, getMinutes, minutesPerDay, hourHeight,
      adjustedStart, adjustedEnd, isSameDay, dateOf, startOfDay, addHours]

theorem positioned_geometry_witness :
    (positionEvent 0 ⟨52, 60, 180, false⟩ 0).top =
      fracHour (adjustedStart 0 ⟨52, 60, 180, false⟩) * hourHeight :=
  ((positioned_geometry 0 [⟨52, 60, 180, false⟩]).1
    (positionEvent 0 ⟨52, 60, 180, false⟩ 0)
    (by rw [show processedDay 0 [⟨52, 60, 180, false⟩] =
        [positionEvent 0 ⟨52, 60, 180, false⟩ 0] from rfl]
        exact List.mem_singleton.mpr rfl)).1

/-! ### C8 -/

/-- C8: a banner entry's title flag is set iff the day is the event's start
date, or the day is the window's first column and the event started before
the window; for a window starting Sunday and an event from the prior Friday
to the following Tuesday, the title shows on Sunday only. -/
theorem banner_title_visibility (weekStartT day : Nat) (dayIndex : Nat)
    (allDayEvs : List CalendarEvent) :
    (∀ entry ∈ bannerEntriesForDay weekStartT day dayIndex allDayEvs,
      (entry.shouldShowTitle = true ↔
        (isSameDay day entry.event.start = true ∨
          (dayIndex = 0 ∧ entry.event.start < weekStartT)))) ∧
    ((weekBanner (8 * 1440) [⟨80, 5 * 1440 + 600, 9 * 1440 + 600, false⟩]).map
        (fun l => l.map fun en => en.shouldShowTitle)) =
      [[true], [false], [false], [], [], [], []] := by
  constructor
  · intro entry hen
    simp only [bannerEntriesForDay, List.mem_map] at hen
    obtain ⟨ev, -, rfl⟩ := hen
    simp [isBefore]
  · decide

theorem banner_title_visibility_witness :
    ({ event := ⟨80, 7800, 13560, false⟩, isFirstDay := false, isLastDay := false,
        shouldShowTitle := true } : BannerEntry).shouldShowTitle = true ↔
      (isSameDay 10080
          ({ event := ⟨80, 7800, 13560, false⟩, isFirstDay := false, isLastDay := false,
              shouldShowTitle := true } : BannerEntry).event.start = true ∨
        ((0 : Nat) = 0 ∧
          ({ event := ⟨80, 7800, 13560, false⟩, isFirstDay := false, isLastDay := false,
              shouldShowTitle := true } : BannerEntry).event.start < 10080)) :=
  (banner_title_visibility 10080 10080 0 [⟨80, 7800, 13560, false⟩]).1 _ (by decide)

/-! ### C10 -/

theorem minutesOfDay_eq (t : Nat) : getHours t * 60 + getMinutes t = t % minutesPerDay := by
  simp only [getHours, getMinutes, minutesPerDay]
  omega

/-- C10: the time tracker's position is (hours * 60 + minutes) / 1440 * 100
(the percent of the day elapsed), and in week view it is visible iff the
current time lies in the inclusive [weekStart, weekEnd] interval of the
displayed week (weeks starting on day index 0); at Saturday 10:00 of the
displayed week the tracker is visible at position 125/3. -/
theorem time_tracker (now currentDate : Nat) :
    currentTimePosition now = ((now % minutesPerDay : Nat) : ℚ) / 1440 * 100 ∧
    (currentTimeVisibleWeek now currentDate = true ↔
      (startOfWeek currentDate ≤ now ∧ now ≤ endOfWeek currentDate)) ∧
    currentTimeVisibleWeek (6 * 1440 + 600) (3 * 1440) = true ∧
    currentTimePosition (6 * 1440 + 600) = 125 / 3 := by
  refine ⟨?_, ?_, by decide, ?_⟩
  · unfold currentTimePosition
    rw [minutesOfDay_eq]
    norm_num
  · simp [currentTimeVisibleWeek, isWithinInterval]
  · norm_num [currentTimePosition, getHours, getMinutes, minutesPerDay]

/-! ### C2 -/

theorem sortedDayEvents_perm (day : Nat) (events : List CalendarEvent) :
    List.Perm (sortedDayEvents day events) (dayEvents day events) :=
  (dayEvents day events).perm_insertionSort eventBefore

theorem dayColumns_event_mem {day : Nat} {events : List CalendarEvent}
    {c : List ColumnEntry} {en : ColumnEntry} (hc : c ∈ dayColumns day events)
    (hen : en ∈ c) : en.event ∈ dayEvents day events := by
  have h1 : en ∈ (buildColumnsAux day [] (sortedDayEvents day events)).flatten :=
    List.mem_flatten.mpr ⟨c, hc, hen⟩
  have h2 := (buildColumnsAux_flatten_perm day (sortedDayEvents day events) []).mem_iff.mp h1
  simp only [List.flatten_nil, List.nil_append] at h2
  obtain ⟨ev, hev, rfl⟩ := List.mem_map.mp h2
  exact (sortedDayEvents_perm day events).mem_iff.mp hev

/-- C2: within any column produced for any day of the 7-day window, the
clipped display intervals of the placed timed events are pairwise disjoint
(as half-open intervals), provided the input events are well-formed. -/
theorem timed_columns_clipped_disjoint (currentDate : Nat)
    (events : List CalendarEvent) (hwf : ∀ ev ∈ events, ev.start ≤ ev.end_) :
    ∀ day ∈ weekDays currentDate, ∀ c ∈ dayColumns day events,
      c.Pairwise fun a b => ¬ clippedOverlap day a.event b.event := by
  intro day hday c hc
  have hm := weekDays_isMidnight hday
  have hpair := buildColumnsAux_pairwise day (sortedDayEvents day events) []
    (by simp) c hc
  refine hpair.imp_of_mem ?_
  intro a b ha hb hR
  have hamem := dayColumns_event_mem hc ha
  have hbmem := dayColumns_event_mem hc hb
  obtain ⟨haev, -, -, hat⟩ := mem_dayEvents.mp hamem
  obtain ⟨hbev, -, -, hbt⟩ := mem_dayEvents.mp hbmem
  exact not_clippedOverlap_of_noConflict hm (hwf _ haev) (hwf _ hbev) hat hbt hR

theorem timed_columns_clipped_disjoint_witness :
    ¬ clippedOverlap 0 ⟨201, 60, 120, false⟩ ⟨202, 120, 180, false⟩ := by
  have h := timed_columns_clipped_disjoint 0
    [⟨201, 60, 120, false⟩, ⟨202, 120, 180, false⟩] (by decide) 0 (by decide)
    [⟨⟨201, 60, 120, false⟩, 120⟩, ⟨⟨202, 120, 180, false⟩, 180⟩] (by decide)
  exact (List.pairwise_cons.mp h).1 ⟨⟨202, 120, 180, false⟩, 180⟩ (by decide)

/-! ### C9 -/

theorem perm_pair {α : Type} {l : List α} {a b : α} (h : List.Perm l [a, b]) :
    l = [a, b] ∨ l = [b, a] := by
  have hlen : l.length = 2 := by simpa using h.length_eq
  obtain ⟨x, y, rfl⟩ : ∃ x y, l = [x, y] := by
    match l, hlen with
    | [x, y], _ => exact ⟨x, y, rfl⟩
  have hx : x ∈ [a, b] := h.mem_iff.mp (by simp)
  rcases List.mem_pair.mp hx with rfl | rfl
  · have h2 : [y] = [b] := List.perm_singleton.mp h.cons_inv
    cases List.singleton_inj.mp h2
    exact Or.inl rfl
  · have h3 := (h.trans (List.Perm.swap x a [])).cons_inv
    have h2 : [y] = [a] := List.perm_singleton.mp h3
    cases List.singleton_inj.mp h2
    exact Or.inr rfl

theorem pair_assign_zero (day : Nat) (x y : CalendarEvent)
    (hconf : overlapsEvent day y x = false) :
    assignColumnsAux day [] [x, y] = [(x, 0), (y, 0)] := by
  simp [assignColumnsAux, findColumn, addToColumns, columnConflict, entryOf, hconf]

/-- C9, counterexample: two touching timed events (end of the first equals
the start of the second) are placed in different columns when a third event
overlaps only the first: event 91 (10:00-11:00) lands in column 1 (zIndex
11) while its touching successor 92 (11:00-12:00) lands in column 0. -/
theorem touching_events_column_counterexample :
    (⟨91, 600, 660, false⟩ : CalendarEvent).end_ =
      (⟨92, 660, 720, false⟩ : CalendarEvent).start ∧
    ((processedDay 0
        [⟨91, 600, 660, false⟩, ⟨92, 660, 720, false⟩, ⟨93, 540, 630, false⟩]).filter
      (fun p => p.event.id == 91)).map (fun p => p.zIndex) = [11] ∧
    ((processedDay 0
        [⟨91, 600, 660, false⟩, ⟨92, 660, 720, false⟩, ⟨93, 540, 630, false⟩]).filter
      (fun p => p.event.id == 92)).map (fun p => p.zIndex) = [10] := by
  decide

/-- C9, amended: when a day's timed bucket consists of exactly the two
events and the first event's end equals the second's start (touching
endpoints, no open-interval overlap), both events are placed in column 0,
i.e. the same column. -/
theorem touching_pair_same_column (day : Nat) (a b : CalendarEvent)
    (hm : IsMidnight day) (hwa : a.start ≤ a.end_) (hwb : b.start ≤ b.end_)
    (htouch : a.end_ = b.start)
    (ha : a ∈ dayEvents day [a, b]) (hb : b ∈ dayEvents day [a, b]) :
    ∀ p ∈ processedDay day [a, b], p.zIndex = 10 := by
  have hta := (mem_dayEvents.mp ha).2.2.2
  have htb := (mem_dayEvents.mp hb).2.2.2
  have hpa := (List.mem_filter.mp ha).2
  have hpb := (List.mem_filter.mp hb).2
  have hbucket : dayEvents day [a, b] = [a, b] := by
    unfold dayEvents at hpa hpb ⊢
    simp only [List.filter, hpa, hpb]
  have hperm : List.Perm (sortedDayEvents day [a, b]) [a, b] :=
    (sortedDayEvents_perm day [a, b]).trans (by rw [hbucket])
  have hsorted : (sortedDayEvents day [a, b]).Pairwise eventBefore :=
    List.sorted_insertionSort eventBefore (dayEvents day [a, b])
  rcases perm_pair hperm with hl | hl
  · have hconf : overlapsEvent day b a = false := by
      unfold overlapsEvent
      rw [areIntervalsOverlapping_of_wf (adjusted_wf hm hwb htb) hwa]
      have h1 : a.end_ ≤ adjustedStart day b := htouch ▸ adjustedStart_ge hm hwb htb
      simp [Nat.not_lt.mpr h1]
    intro p hp
    unfold processedDay at hp
    rw [hl, pair_assign_zero day a b hconf] at hp
    simp only [List.map_cons, List.map_nil, List.mem_cons, List.not_mem_nil,
      or_false] at hp
    rcases hp with rfl | rfl <;> rfl
  · have hba : eventLE b a = true := by
      rw [hl] at hsorted
      exact (List.pairwise_cons.mp hsorted).1 a (List.mem_singleton.mpr rfl)
    rw [eventLE_iff] at hba
    have heq : b.start = a.start := by
      rcases hba with h | ⟨h, -⟩
      · exact absurd (Nat.lt_of_le_of_lt (htouch ▸ hwa) h) (Nat.lt_irrefl _)
      · exact h
    have hzero : a.end_ = a.start := htouch.trans heq
    have hsa : isSameDay day a.start = true := by
      rw [isSameDay_iff]
      rcases touchesDay_iff.mp hta with h | h | h
      · exact h
      · rw [hzero] at h; exact h
      · rw [hzero] at h; exact absurd (h.1.trans h.2) (Nat.lt_irrefl _)
    have hse : isSameDay day a.end_ = true := by rw [hzero]; exact hsa
    have hconf : overlapsEvent day a b = false := by
      unfold overlapsEvent adjustedStart adjustedEnd
      rw [if_pos hsa, if_pos hse, hzero]
      unfold areIntervalsOverlapping
      rw [Nat.min_eq_left hwb, Nat.max_self, Nat.min_self, heq]
      simp
    intro p hp
    unfold processedDay at hp
    rw [hl, pair_assign_zero day b a hconf] at hp
    simp only [List.map_cons, List.map_nil, List.mem_cons, List.not_mem_nil,
      or_false] at hp
    rcases hp with rfl | rfl <;> rfl

theorem touching_pair_same_column_witness :
    List.Forall (fun p => p.zIndex = 10)
      (processedDay 0 [⟨95, 300, 360, false⟩, ⟨96, 360, 420, false⟩]) :=
  List.forall_iff_forall_mem.mpr
    (touching_pair_same_column 0 ⟨95, 300, 360, false⟩ ⟨96, 360, 420, false⟩
      rfl (by decide) (by decide) (by decide) (by decide) (by decide))

/-! ### C3 -/

/-- C3, counterexample: the midnight-ending event 31 (23:00-24:00, clipped
on day 1 to the empty instant [24:00, 24:00)) is placed in column 1 even
though column 0's only event 32 (22:00-00:30, clipped to [24:00, 00:30))
does not open-overlap it under adjusted times: the code's scan tests the
candidate's adjusted interval against placed events' ORIGINAL times, not
their adjusted times as the claim states. -/
theorem column_scan_adjusted_times_counterexample :
    ((processedDay 1440 [⟨31, 1380, 1440, false⟩, ⟨32, 1320, 1470, false⟩]).filter
      (fun p => p.event.id == 31)).map (fun p => p.zIndex) = [11] ∧
    ((processedDay 1440 [⟨31, 1380, 1440, false⟩, ⟨32, 1320, 1470, false⟩]).filter
      (fun p => p.event.id == 32)).map (fun p => p.zIndex) = [10] ∧
    areIntervalsOverlapping (adjustedStart 1440 ⟨31, 1380, 1440, false⟩)
      (adjustedEnd 1440 ⟨31, 1380, 1440, false⟩)
      (adjustedStart 1440 ⟨32, 1320, 1470, false⟩)
      (adjustedEnd 1440 ⟨32, 1320, 1470, false⟩) = false := by
  decide

/-- C3, amended: the day's timed events are processed in ascending order of
ORIGINAL (unclipped) start time, ties broken by duration descending, and
each event is assigned the lowest-indexed column in which its clipped
interval open-overlaps no already-placed event's ORIGINAL interval, with a
new column (index = current column count) exactly when every existing
column conflicts. -/
theorem greedy_placement_amended (day : Nat) (events : List CalendarEvent)
    (ev : CalendarEvent) (cols : List (List ColumnEntry)) :
    List.Perm (sortedDayEvents day events) (dayEvents day events) ∧
    (sortedDayEvents day events).Pairwise (fun a b =>
      a.start < b.start ∨ (a.start = b.start ∧
        differenceInMinutes b.end_ b.start ≤ differenceInMinutes a.end_ a.start)) ∧
    findColumn day ev cols ≤ cols.length ∧
    (∀ j, j < findColumn day ev cols →
      ∃ c, cols[j]? = some c ∧ columnConflict day ev c = true) ∧
    (∀ c, cols[findColumn day ev cols]? = some c →
      columnConflict day ev c = false) := by
  refine ⟨sortedDayEvents_perm day events, ?_, findColumn_le day ev cols,
    fun j hj => findColumn_conflict day ev cols j hj,
    fun c hc => findColumn_fits day ev cols c hc⟩
  have h := List.sorted_insertionSort eventBefore (dayEvents day events)
  refine h.imp ?_
  intro a b hab
  have := eventLE_iff a b |>.mp hab
  unfold differenceInMinutes
  exact this

theorem greedy_placement_amended_witness :
    ∃ c, ([[⟨⟨33, 0, 60, false⟩, 60⟩]] : List (List ColumnEntry))[0]? = some c ∧
      columnConflict 0 ⟨34, 30, 90, false⟩ c = true :=
  (greedy_placement_amended 0 [] ⟨34, 30, 90, false⟩
    [[⟨⟨33, 0, 60, false⟩, 60⟩]]).2.2.2.1 0 (by decide)

/-! ### C4 -/

/-- C4, counterexample: three pairwise time-overlapping timed events
assigned to day 1 (21:00-24:00, 22:00-00:30 and 23:00-24:00 of the previous
day, all crossing into or ending at day 1's midnight) form an overlap
clique of size 3, yet the packer produces only 2 columns, because clipping
collapses their day-1 intervals. -/
theorem column_count_clique_counterexample :
    dayEvents 1440
      [⟨43, 1260, 1440, false⟩, ⟨41, 1320, 1470, false⟩, ⟨42, 1380, 1440, false⟩] =
      [⟨43, 1260, 1440, false⟩, ⟨41, 1320, 1470, false⟩, ⟨42, 1380, 1440, false⟩] ∧
    ([⟨43, 1260, 1440, false⟩, ⟨41, 1320, 1470, false⟩, ⟨42, 1380, 1440, false⟩] :
      List CalendarEvent).Pairwise (fun a b => rawOverlap a b = true) ∧
    (dayColumns 1440
      [⟨43, 1260, 1440, false⟩, ⟨41, 1320, 1470, false⟩, ⟨42, 1380, 1440, false⟩]).length
      = 2 := by
  decide

/-- An event whose start and end both lie on the laid-out day keeps its
original interval after clipping, and is well-formed. -/
def WithinDay (day : Nat) (ev : CalendarEvent) : Prop :=
  ev.start ≤ ev.end_ ∧ adjustedStart day ev = ev.start ∧ adjustedEnd day ev = ev.end_

theorem overlapsEvent_eq_raw {day : Nat} {ev : CalendarEvent}
    (hs : adjustedStart day ev = ev.start) (he : adjustedEnd day ev = ev.end_)
    (old : CalendarEvent) : overlapsEvent day ev old = rawOverlap ev old := by
  unfold overlapsEvent rawOverlap
  rw [hs, he]

theorem rawOverlap_comm (a b : CalendarEvent) : rawOverlap a b = rawOverlap b a := by
  unfold rawOverlap areIntervalsOverlapping
  rw [Bool.and_comm]

theorem rawOverlap_true_iff {a b : CalendarEvent} (ha : a.start ≤ a.end_)
    (hb : b.start ≤ b.end_) :
    rawOverlap a b = true ↔ (a.start < b.end_ ∧ b.start < a.end_) := by
  unfold rawOverlap
  rw [areIntervalsOverlapping_of_wf ha hb]
  simp

/-- From a conflict in every column, select one conflicting entry per
column. -/
theorem conflict_select (day : Nat) (ev : CalendarEvent) :
    ∀ cols : List (List ColumnEntry),
      (∀ j, j < cols.length → ∃ c, cols[j]? = some c ∧ columnConflict day ev c = true) →
      ∃ sel : List ColumnEntry, sel.Sublist cols.flatten ∧ sel.length = cols.length ∧
        ∀ en ∈ sel, overlapsEvent day ev en.event = true := by
  intro cols
  induction cols with
  | nil => intro _; exact ⟨[], by simp, rfl, by simp⟩
  | cons c0 rest ih =>
    intro h
    obtain ⟨c, hc, hconf⟩ := h 0 (Nat.succ_pos _)
    rw [List.getElem?_cons_zero] at hc
    cases hc
    obtain ⟨en0, hen0, hov⟩ : ∃ en ∈ c0, overlapsEvent day ev en.event = true := by
      unfold columnConflict at hconf
      simpa using List.any_eq_true.mp hconf
    obtain ⟨sel, hsub, hlen, hall⟩ := ih (fun j hj => by
      obtain ⟨c, hc, hcf⟩ := h (j + 1) (Nat.succ_lt_succ hj)
      rw [List.getElem?_cons_succ] at hc
      exact ⟨c, hc, hcf⟩)
    refine ⟨en0 :: sel, ?_, by simp [hlen], ?_⟩
    · simp only [List.flatten_cons]
      exact List.Sublist.append (List.singleton_sublist.mpr hen0) hsub
    · intro en hen
      rcases List.mem_cons.mp hen with rfl | hen
      · exact hov
      · exact hall en hen

/-- Core induction for the clique-existence direction of C4: along the
placement fold, either no new column is ever created, or there is a set of
pairwise-overlapping events (drawn from the placed entries and the pending
list) whose size is the final column count. -/
theorem build_clique_exists (day : Nat) :
    ∀ (l : List CalendarEvent) (cols : List (List ColumnEntry)),
      (∀ e ∈ l, WithinDay day e) →
      (∀ en ∈ cols.flatten, WithinDay day en.event) →
      (∀ en ∈ cols.flatten, ∀ e ∈ l, en.event.start ≤ e.start) →
      l.Pairwise (fun a b => a.start ≤ b.start) →
      (buildColumnsAux day cols l).length = cols.length ∨
      (∃ S : List CalendarEvent,
        S.Subperm (cols.flatten.map (fun en => en.event) ++ l) ∧
        S.Pairwise (fun a b => rawOverlap a b = true) ∧
        S.length = (buildColumnsAux day cols l).length) := by
  intro l
  induction l with
  | nil =>
    intro cols _ _ _ _
    exact Or.inl rfl
  | cons ev rest ih =>
    intro cols hQl hQc hlink hsorted
    have hQev : WithinDay day ev := hQl ev (List.mem_cons_self _ _)
    have hbuild : buildColumnsAux day cols (ev :: rest) =
        buildColumnsAux day
          (addToColumns (entryOf day ev) cols (findColumn day ev cols)) rest := rfl
    have hflat' : ∀ en ∈ (addToColumns (entryOf day ev) cols
        (findColumn day ev cols)).flatten, en ∈ cols.flatten ∨ en = entryOf day ev := by
      intro en hen
      have h1 := (addToColumns_flatten_perm (entryOf day ev) cols
        (findColumn day ev cols)).mem_iff.mp hen
      rcases List.mem_cons.mp h1 with h | h
      · exact Or.inr h
      · exact Or.inl h
    have hQc' : ∀ en ∈ (addToColumns (entryOf day ev) cols
        (findColumn day ev cols)).flatten, WithinDay day en.event := by
      intro en hen
      rcases hflat' en hen with h | rfl
      · exact hQc en h
      · exact hQev
    have hlink' : ∀ en ∈ (addToColumns (entryOf day ev) cols
        (findColumn day ev cols)).flatten, ∀ e ∈ rest, en.event.start ≤ e.start := by
      intro en hen e he
      rcases hflat' en hen with h | rfl
      · exact hlink en h e (List.mem_cons_of_mem _ he)
      · exact (List.pairwise_cons.mp hsorted).1 e he
    rcases ih (addToColumns (entryOf day ev) cols (findColumn day ev cols))
        (fun e he => hQl e (List.mem_cons_of_mem _ he)) hQc' hlink'
        (List.pairwise_cons.mp hsorted).2 with hlen | ⟨S, hS1, hS2, hS3⟩
    · rcases Nat.lt_or_ge (findColumn day ev cols) cols.length with hklt | hkge
      · left
        rw [hbuild, hlen, addToColumns_length_of_lt _ _ _ hklt]
      · have hkeq : findColumn day ev cols = cols.length :=
          Nat.le_antisymm (findColumn_le day ev cols) hkge
        right
        obtain ⟨sel, hsub, hlen2, hall⟩ := conflict_select day ev cols (fun j hj =>
          findColumn_conflict day ev cols j (by omega))
        have hQsel : ∀ en ∈ sel, WithinDay day en.event := fun en hen =>
          hQc en (hsub.subset hen)
        have hstart : ∀ en ∈ sel, en.event.start ≤ ev.start := fun en hen =>
          hlink en (hsub.subset hen) ev (List.mem_cons_self _ _)
        have hconv : ∀ en ∈ sel, ev.start < en.event.end_ ∧ en.event.start < ev.end_ := by
          intro en hen
          have h0 := hall en hen
          rw [overlapsEvent_eq_raw hQev.2.1 hQev.2.2,
            rawOverlap_true_iff hQev.1 (hQsel en hen).1] at h0
          exact h0
        refine ⟨sel.map (fun en => en.event) ++ [ev], ?_, ?_, ?_⟩
        · have h1 : (sel.map (fun en => en.event)).Sublist
              (cols.flatten.map (fun en => en.event)) := hsub.map _
          have hmid1 : List.Perm (sel.map (fun en => en.event) ++ [ev])
              (ev :: sel.map (fun en => en.event)) := by
            simpa using (@List.perm_middle _ ev (sel.map (fun en => en.event)) [])
          have h2 : (ev :: sel.map (fun en => en.event)).Sublist
              (ev :: (cols.flatten.map (fun en => en.event) ++ rest)) :=
            (h1.trans (List.sublist_append_left _ _)).cons₂ ev
          have h3 : (sel.map (fun en => en.event) ++ [ev]).Subperm
              (ev :: (cols.flatten.map (fun en => en.event) ++ rest)) :=
            ⟨ev :: sel.map (fun en => en.event), hmid1.symm, h2⟩
          exact h3.trans List.perm_middle.symm.subperm
        · rw [List.pairwise_append]
          refine ⟨?_, List.pairwise_singleton _ _, ?_⟩
          · rw [List.pairwise_map]
            apply List.pairwise_of_forall_mem_list
            intro a ha b hb
            rw [rawOverlap_true_iff (hQsel a ha).1 (hQsel b hb).1]
            exact ⟨Nat.lt_of_le_of_lt (hstart a ha) (hconv b hb).1,
              Nat.lt_of_le_of_lt (hstart b hb) (hconv a ha).1⟩
          · intro a ha b hb
            rcases List.mem_singleton.mp hb with rfl
            obtain ⟨en, hen, rfl⟩ := List.mem_map.mp ha
            rw [rawOverlap_true_iff (hQsel en hen).1 hQev.1]
            exact ⟨(hconv en hen).2, (hconv en hen).1⟩
        · rw [hbuild, hlen, hkeq, addToColumns_length_self]
          simp [hlen2]
    · right
      refine ⟨S, ?_, hS2, by rw [hbuild]; exact hS3⟩
      have hperm : List.Perm
          ((addToColumns (entryOf day ev) cols
            (findColumn day ev cols)).flatten.map (fun en => en.event) ++ rest)
          (cols.flatten.map (fun en => en.event) ++ ev :: rest) := by
        calc (addToColumns (entryOf day ev) cols
              (findColumn day ev cols)).flatten.map (fun en => en.event) ++ rest
            ~ (entryOf day ev :: cols.flatten).map (fun en => en.event) ++ rest :=
              ((addToColumns_flatten_perm _ cols _).map _).append_right rest
          _ = ev :: (cols.flatten.map (fun en => en.event) ++ rest) := by simp [entryOf]
          _ ~ cols.flatten.map (fun en => en.event) ++ ev :: rest :=
              List.perm_middle.symm
      exact hS1.trans hperm.subperm

theorem length_le_of_nodup_lt {l : List Nat} {n : Nat} (hnd : l.Nodup)
    (hlt : ∀ x ∈ l, x < n) : l.length ≤ n := by
  have h1 : l.toFinset.card = l.length := List.toFinset_card_of_nodup hnd
  have h2 : l.toFinset ⊆ Finset.range n := by
    intro x hx
    rw [Finset.mem_range]
    exact hlt x (List.mem_toFinset.mp hx)
  have h3 := Finset.card_le_card h2
  rw [h1, Finset.card_range] at h3
  exact h3

/-- C4, amended: for a day all of whose timed events start and end within
that day (so clipping is the identity) and are well-formed, the number of
columns produced equals the size of the largest multiset of pairwise
open-interval-overlapping events of that day's bucket: such a set of
exactly the column count exists, and no larger one does. -/
theorem column_count_eq_max_clique (day : Nat) (events : List CalendarEvent)
    (hin : ∀ ev ∈ dayEvents day events, ev.start ≤ ev.end_ ∧
      isSameDay day ev.start = true ∧ isSameDay day ev.end_ = true) :
    (∃ S : List CalendarEvent, S.Subperm (dayEvents day events) ∧
      S.Pairwise (fun a b => rawOverlap a b = true) ∧
      S.length = (dayColumns day events).length) ∧
    (∀ T : List CalendarEvent, T.Subperm (dayEvents day events) →
      T.Pairwise (fun a b => rawOverlap a b = true) →
      T.length ≤ (dayColumns day events).length) := by
  have hQ : ∀ ev ∈ dayEvents day events, WithinDay day ev := by
    intro ev hev
    obtain ⟨h1, h2, h3⟩ := hin ev hev
    exact ⟨h1, by unfold adjustedStart; rw [if_pos h2], by unfold adjustedEnd; rw [if_pos h3]⟩
  have hQs : ∀ ev ∈ sortedDayEvents day events, WithinDay day ev := fun ev hev =>
    hQ ev ((sortedDayEvents_perm day events).mem_iff.mp hev)
  constructor
  · have hsorted : (sortedDayEvents day events).Pairwise
        (fun a b => a.start ≤ b.start) := by
      refine (List.sorted_insertionSort eventBefore (dayEvents day events)).imp ?_
      intro a b hab
      rcases (eventLE_iff a b).mp hab with h | ⟨h, -⟩
      · exact Nat.le_of_lt h
      · exact Nat.le_of_eq h
    rcases build_clique_exists day (sortedDayEvents day events) [] hQs
        (by simp) (by simp) hsorted with hlen | ⟨S, hS1, hS2, hS3⟩
    · refine ⟨[], List.nil_subperm, List.Pairwise.nil, ?_⟩
      rw [show (dayColumns day events) = buildColumnsAux day []
        (sortedDayEvents day events) from rfl, hlen]
      rfl
    · refine ⟨S, ?_, hS2, hS3⟩
      simp only [List.flatten_nil, List.map_nil, List.nil_append] at hS1
      exact hS1.trans (sortedDayEvents_perm day events).subperm
  · intro T hsubT hpairT
    have hsub2 : T.Subperm
        ((assignColumnsAux day [] (sortedDayEvents day events)).map Prod.fst) := by
      rw [assignColumnsAux_map_fst]
      exact hsubT.trans (sortedDayEvents_perm day events).symm.subperm
    obtain ⟨T', hTT', hT'sub⟩ := hsub2
    obtain ⟨A', hA'sub, rfl⟩ := List.sublist_map_iff.mp hT'sub
    have hpairA : A'.Pairwise
        (fun p q => p.2 = q.2 → overlapsEvent day q.1 p.1 = false) :=
      (assignColumnsAux_pairwise day (sortedDayEvents day events) []).sublist hA'sub
    have hsymm : Symmetric (fun a b : CalendarEvent => rawOverlap a b = true) := by
      intro a b h
      rw [rawOverlap_comm]
      exact h
    have hpairT' : (A'.map Prod.fst).Pairwise (fun a b => rawOverlap a b = true) :=
      (List.Perm.pairwise_iff (fun {_ _} h => hsymm h) hTT').mpr hpairT
    rw [List.pairwise_map] at hpairT'
    have hne : A'.Pairwise (fun p q => p.2 ≠ q.2) := by
      refine (hpairA.and hpairT').imp_of_mem ?_
      intro p q hp hq hmix heq
      have hqmem : q.1 ∈ sortedDayEvents day events := by
        rw [← assignColumnsAux_map_fst day (sortedDayEvents day events) []]
        exact List.mem_map.mpr ⟨q, hA'sub.subset hq, rfl⟩
      have hQq := hQs q.1 hqmem
      have h1 := hmix.1 heq
      rw [overlapsEvent_eq_raw hQq.2.1 hQq.2.2, rawOverlap_comm] at h1
      rw [hmix.2] at h1
      simp at h1
    have hnd : (A'.map Prod.snd).Nodup := by
      show List.Pairwise (fun a b => a ≠ b) (A'.map Prod.snd)
      rw [List.pairwise_map]
      exact hne
    have hbound : ∀ x ∈ A'.map Prod.snd, x < (dayColumns day events).length := by
      intro x hx
      obtain ⟨p, hp, rfl⟩ := List.mem_map.mp hx
      exact assignColumnsAux_snd_lt day (sortedDayEvents day events) [] p
        (hA'sub.subset hp)
    calc T.length = (A'.map Prod.fst).length := hTT'.length_eq.symm
      _ = (A'.map Prod.snd).length := by simp
      _ ≤ (dayColumns day events).length := length_le_of_nodup_lt hnd hbound

theorem column_count_eq_max_clique_witness :
    ([⟨45, 0, 60, false⟩] : List CalendarEvent).length ≤
      (dayColumns 0 [⟨45, 0, 60, false⟩]).length :=
  (column_count_eq_max_clique 0 [⟨45, 0, 60, false⟩] (by decide)).2
    [⟨45, 0, 60, false⟩]
    (by rw [show dayEvents 0 [⟨45, 0, 60, false⟩] = [⟨45, 0, 60, false⟩] from by decide])
    (List.pairwise_singleton _ _)

end EventCalendar
